import Mathlib

/-!
Shallow embedding of the `getopt` crate's core parser (src/parser.rs,
src/opt.rs, src/error.rs, src/errorkind.rs) for verification of its
specification.

Rust strings are modelled as `List Char` (the parser itself "explodes"
every argument into a `Vec<char>`); the `HashMap<char, bool>` of option
characters is modelled as a function `Char → Option Bool` built by the
same insertion sequence the Rust constructor performs (a later insert
overwrites an earlier one, exactly as `HashMap::insert` does).
Fallible accesses `args[index]` / `args[index][point]` are modelled with
`List.getD` and a separate in-bounds invariant captures the conditions
under which the Rust code never panics.
-/

namespace Getopt

/-- One of the two error kinds of src/errorkind.rs. -/
inductive ErrorKind where
  | MissingArgument : ErrorKind
  | UnknownOption : ErrorKind
deriving DecidableEq

/-- The error type of src/error.rs: the offending character and the kind. -/
structure Error where
  culprit : Char
  kind : ErrorKind
deriving DecidableEq

/-- A parsed option (src/opt.rs): `Opt(char, Option<String>)`. -/
structure Opt where
  c : Char
  arg : Option (List Char)
deriving DecidableEq

/-- The step outcome: Rust `Result<Opt> = Result<Opt, Error>`. -/
inductive StepResult where
  | ok : Opt → StepResult
  | err : Error → StepResult
deriving DecidableEq

/-- One `HashMap::insert`: a function update, so a later insert wins. -/
def specInsert (m : Char → Option Bool) (c : Char) (b : Bool) : Char → Option Bool :=
  fun x => if x = c then some b else m x

/-- The optstring scan loop of `Parser::new` (src/parser.rs lines 113-124):
if the character after `optstring[i]` is a colon, insert `(optstring[i], true)`
and skip both; otherwise insert `(optstring[i], false)` and move one ahead. -/
def buildOpts : List Char → (Char → Option Bool) → Char → Option Bool
  | [], m => m
  | [c], m => specInsert m c false
  | c :: d :: rest, m =>
    if d = ':' then buildOpts rest (specInsert m c true)
    else buildOpts (d :: rest) (specInsert m c false)

/-- The parser state of src/parser.rs: the option map, the exploded
argument vector, and the two cursor fields. -/
structure Parser where
  opts : Char → Option Bool
  args : List (List Char)
  index : Nat
  point : Nat

/-- `Parser::new`: build the option map from `optstring`, explode `args`
into character vectors, and start at `index = 1`, `point = 0`. -/
def Parser.new (args : List String) (optstring : String) : Parser :=
  { opts := buildOpts optstring.toList (fun _ => none)
  , args := args.map (fun e => e.toList)
  , index := 1
  , point := 0 }

/-- `Parser::set_index`: overwrite `index`, reset `point` to 0. -/
def Parser.set_index (p : Parser) (value : Nat) : Parser :=
  { p with index := value, point := 0 }

/-- `Parser::incr_index`: increment `index`, reset `point` to 0. -/
def Parser.incr_index (p : Parser) : Parser :=
  { p with index := p.index + 1, point := 0 }

/-- The character-dispatch half of `Parser::next` (src/parser.rs lines
277-313): read the character at `(index, point)`, advance `point`, and act
according to the option map. -/
def Parser.dispatch (p : Parser) : Option StepResult × Parser :=
  let tok := p.args.getD p.index []
  let opt := tok.getD p.point ' '
  let q : Parser := { p with point := p.point + 1 }
  match q.opts opt with
  | none =>
    if q.point ≥ tok.length then
      (some (StepResult.err ⟨opt, ErrorKind.UnknownOption⟩), q.incr_index)
    else
      (some (StepResult.err ⟨opt, ErrorKind.UnknownOption⟩), q)
  | some false =>
    if q.point ≥ tok.length then
      (some (StepResult.ok ⟨opt, none⟩), q.incr_index)
    else
      (some (StepResult.ok ⟨opt, none⟩), q)
  | some true =>
    if q.point ≥ tok.length then
      let r := q.incr_index
      if r.index ≥ r.args.length then
        (some (StepResult.err ⟨opt, ErrorKind.MissingArgument⟩), r)
      else
        (some (StepResult.ok ⟨opt, some (r.args.getD r.index [])⟩), r.incr_index)
    else
      (some (StepResult.ok ⟨opt, some (tok.drop q.point)⟩), q.incr_index)

/-- `Parser::next` (src/parser.rs lines 240-314). When `point = 0` the
token-boundary checks run first: exhausted vector / empty token / token not
starting with the option-prefix character / bare "-" end the scan in place;
the "--" terminator ends the scan after one `incr_index`; otherwise `point`
moves past the leading '-' and the character dispatch runs. -/
def Parser.next (p : Parser) : Option StepResult × Parser :=
  if p.point = 0 then
    let tok := p.args.getD p.index []
    if p.index ≥ p.args.length ∨ tok = [] ∨ tok.getD 0 ' ' ≠ '-' ∨ tok.length = 1 then
      (none, p)
    else if tok.getD 1 ' ' = '-' ∧ tok.length = 2 then
      (none, p.incr_index)
    else
      Parser.dispatch { p with point := p.point + 1 }
  else
    Parser.dispatch p

/-- The position within the current token at which `Parser.next` will
dispatch a character, if it dispatches at all (`none` when the step
returns end-of-options from the boundary checks or the "--" terminator). -/
def Parser.dispatchPoint (p : Parser) : Option Nat :=
  if p.point = 0 then
    let tok := p.args.getD p.index []
    if p.index ≥ p.args.length ∨ tok = [] ∨ tok.getD 0 ' ' ≠ '-' ∨ tok.length = 1 then
      none
    else if tok.getD 1 ' ' = '-' ∧ tok.length = 2 then
      none
    else
      some 1
  else
    some p.point

/-- The in-bounds invariant under which the Rust `next` never panics:
whenever `point` is nonzero, `index` is inside the argument vector and
`point` is inside the current token. -/
def Parser.Inv (p : Parser) : Prop :=
  p.point ≠ 0 → p.index < p.args.length ∧ p.point < (p.args.getD p.index []).length

instance (p : Parser) : Decidable p.Inv := by
  unfold Parser.Inv
  infer_instance

/-- States reachable through the public API: construction, `set_index`,
`incr_index`, and the step operation. -/
inductive Parser.Reachable : Parser → Prop where
  | new (args : List String) (optstring : String) :
      Parser.Reachable (Parser.new args optstring)
  | set_index (p : Parser) (v : Nat) :
      Parser.Reachable p → Parser.Reachable (p.set_index v)
  | incr_index (p : Parser) :
      Parser.Reachable p → Parser.Reachable p.incr_index
  | step (p : Parser) :
      Parser.Reachable p → Parser.Reachable p.next.2

/-- Iterate the step operation `n` times, collecting the results. -/
def Parser.run (p : Parser) : Nat → List (Option StepResult) × Parser
  | 0 => ([], p)
  | n + 1 =>
    let s := p.next
    let t := s.2.run n
    (s.1 :: t.1, t.2)

/-! Basic lemmas about the step operation. -/

lemma Parser.next_of_stop (p : Parser) (h0 : p.point = 0)
    (h : p.index ≥ p.args.length ∨ p.args.getD p.index [] = [] ∨
         (p.args.getD p.index []).getD 0 ' ' ≠ '-' ∨
         (p.args.getD p.index []).length = 1) :
    p.next = (none, p) := by
  unfold Parser.next
  rw [if_pos h0, if_pos h]

lemma Parser.next_of_ddash (p : Parser) (h0 : p.point = 0)
    (h : p.args.getD p.index [] = ['-', '-']) (hlt : p.index < p.args.length) :
    p.next = (none, p.incr_index) := by
  unfold Parser.next
  rw [if_pos h0, if_neg, if_pos]
  · rw [h]
    exact ⟨rfl, rfl⟩
  · rw [h]
    push_neg
    refine ⟨hlt, by simp, by simp, by simp⟩

lemma Parser.next_eq_dispatch (p : Parser) (j : Nat) (h : p.dispatchPoint = some j) :
    p.next = Parser.dispatch { p with point := j } := by
  unfold Parser.dispatchPoint at h
  unfold Parser.next
  by_cases h0 : p.point = 0
  · rw [if_pos h0] at h ⊢
    by_cases h1 : p.index ≥ p.args.length ∨ p.args.getD p.index [] = [] ∨
        (p.args.getD p.index []).getD 0 ' ' ≠ '-' ∨ (p.args.getD p.index []).length = 1
    · rw [if_pos h1] at h
      exact absurd h (by simp)
    · rw [if_neg h1] at h ⊢
      by_cases h2 : (p.args.getD p.index []).getD 1 ' ' = '-' ∧
          (p.args.getD p.index []).length = 2
      · rw [if_pos h2] at h
        exact absurd h (by simp)
      · rw [if_neg h2] at h ⊢
        have hj : j = 1 := by
          have := Option.some.inj h
          omega
        rw [hj, h0]
  · rw [if_neg h0] at h ⊢
    have hj : j = p.point := (Option.some.inj h).symm
    rw [hj]

lemma Parser.dispatchPoint_cases (p : Parser) (j : Nat) (h : p.dispatchPoint = some j) :
    (p.point = 0 ∧ j = 1 ∧ p.index < p.args.length ∧
       2 ≤ (p.args.getD p.index []).length ∧
       (p.args.getD p.index []).getD 0 ' ' = '-') ∨
    (j = p.point ∧ p.point ≠ 0) := by
  unfold Parser.dispatchPoint at h
  by_cases h0 : p.point = 0
  · rw [if_pos h0] at h
    by_cases h1 : p.index ≥ p.args.length ∨ p.args.getD p.index [] = [] ∨
        (p.args.getD p.index []).getD 0 ' ' ≠ '-' ∨ (p.args.getD p.index []).length = 1
    · rw [if_pos h1] at h
      exact absurd h (by simp)
    · rw [if_neg h1] at h
      push_neg at h1
      obtain ⟨ha, hb, hc, hd⟩ := h1
      by_cases h2 : (p.args.getD p.index []).getD 1 ' ' = '-' ∧
          (p.args.getD p.index []).length = 2
      · rw [if_pos h2] at h
        exact absurd h (by simp)
      · rw [if_neg h2] at h
        have hj : j = 1 := by
          have := Option.some.inj h
          omega
        have hlen : (p.args.getD p.index []).length ≠ 0 := by
          intro hz
          exact hb (List.length_eq_zero.mp hz)
        left
        exact ⟨h0, hj, ha, by omega, hc⟩
  · rw [if_neg h0] at h
    right
    exact ⟨(Option.some.inj h).symm, h0⟩

lemma Parser.dispatchPoint_none (p : Parser) (h : p.dispatchPoint = none) :
    p.next = (none, p) ∨ p.next = (none, p.incr_index) := by
  unfold Parser.dispatchPoint at h
  unfold Parser.next
  by_cases h0 : p.point = 0
  · rw [if_pos h0] at h ⊢
    by_cases h1 : p.index ≥ p.args.length ∨ p.args.getD p.index [] = [] ∨
        (p.args.getD p.index []).getD 0 ' ' ≠ '-' ∨ (p.args.getD p.index []).length = 1
    · rw [if_pos h1]
      left
      rfl
    · rw [if_neg h1] at h ⊢
      by_cases h2 : (p.args.getD p.index []).getD 1 ' ' = '-' ∧
          (p.args.getD p.index []).length = 2
      · rw [if_pos h2]
        right
        rfl
      · rw [if_neg h2] at h
        exact absurd h (by simp)
  · rw [if_neg h0] at h
    exact absurd h (by simp)

lemma Parser.dispatch_unknown_last (p : Parser)
    (h : p.opts ((p.args.getD p.index []).getD p.point ' ') = none)
    (hge : p.point + 1 ≥ (p.args.getD p.index []).length) :
    p.dispatch =
      (some (StepResult.err ⟨(p.args.getD p.index []).getD p.point ' ',
          ErrorKind.UnknownOption⟩),
       { p with index := p.index + 1, point := 0 }) := by
  unfold Parser.dispatch Parser.incr_index
  simp only [h]
  rw [if_pos hge]

lemma Parser.dispatch_unknown_mid (p : Parser)
    (h : p.opts ((p.args.getD p.index []).getD p.point ' ') = none)
    (hlt : p.point + 1 < (p.args.getD p.index []).length) :
    p.dispatch =
      (some (StepResult.err ⟨(p.args.getD p.index []).getD p.point ' ',
          ErrorKind.UnknownOption⟩),
       { p with point := p.point + 1 }) := by
  unfold Parser.dispatch Parser.incr_index
  simp only [h]
  rw [if_neg (by omega)]

lemma Parser.dispatch_flag_last (p : Parser)
    (h : p.opts ((p.args.getD p.index []).getD p.point ' ') = some false)
    (hge : p.point + 1 ≥ (p.args.getD p.index []).length) :
    p.dispatch =
      (some (StepResult.ok ⟨(p.args.getD p.index []).getD p.point ' ', none⟩),
       { p with index := p.index + 1, point := 0 }) := by
  unfold Parser.dispatch Parser.incr_index
  simp only [h]
  rw [if_pos hge]

lemma Parser.dispatch_flag_mid (p : Parser)
    (h : p.opts ((p.args.getD p.index []).getD p.point ' ') = some false)
    (hlt : p.point + 1 < (p.args.getD p.index []).length) :
    p.dispatch =
      (some (StepResult.ok ⟨(p.args.getD p.index []).getD p.point ' ', none⟩),
       { p with point := p.point + 1 }) := by
  unfold Parser.dispatch Parser.incr_index
  simp only [h]
  rw [if_neg (by omega)]

lemma Parser.dispatch_arg_inline (p : Parser)
    (h : p.opts ((p.args.getD p.index []).getD p.point ' ') = some true)
    (hlt : p.point + 1 < (p.args.getD p.index []).length) :
    p.dispatch =
      (some (StepResult.ok ⟨(p.args.getD p.index []).getD p.point ' ',
          some ((p.args.getD p.index []).drop (p.point + 1))⟩),
       { p with index := p.index + 1, point := 0 }) := by
  unfold Parser.dispatch Parser.incr_index
  simp only [h]
  rw [if_neg (by omega)]

lemma Parser.dispatch_arg_missing (p : Parser)
    (h : p.opts ((p.args.getD p.index []).getD p.point ' ') = some true)
    (hge : p.point + 1 ≥ (p.args.getD p.index []).length)
    (hidx : p.index + 1 ≥ p.args.length) :
    p.dispatch =
      (some (StepResult.err ⟨(p.args.getD p.index []).getD p.point ' ',
          ErrorKind.MissingArgument⟩),
       { p with index := p.index + 1, point := 0 }) := by
  unfold Parser.dispatch Parser.incr_index
  simp only [h]
  rw [if_pos hge, if_pos hidx]

lemma Parser.dispatch_arg_next (p : Parser)
    (h : p.opts ((p.args.getD p.index []).getD p.point ' ') = some true)
    (hge : p.point + 1 ≥ (p.args.getD p.index []).length)
    (hidx : p.index + 1 < p.args.length) :
    p.dispatch =
      (some (StepResult.ok ⟨(p.args.getD p.index []).getD p.point ' ',
          some (p.args.getD (p.index + 1) [])⟩),
       { p with index := p.index + 2, point := 0 }) := by
  unfold Parser.dispatch Parser.incr_index
  simp only [h]
  rw [if_pos hge, if_neg (by omega)]

lemma Parser.dispatch_frame (p : Parser) :
    p.dispatch.2.args = p.args ∧ p.dispatch.2.opts = p.opts := by
  rcases hc : p.opts ((p.args.getD p.index []).getD p.point ' ') with _ | b
  · by_cases hlen : (p.args.getD p.index []).length ≤ p.point + 1
    · rw [Parser.dispatch_unknown_last p hc hlen]
      exact ⟨rfl, rfl⟩
    · rw [Parser.dispatch_unknown_mid p hc (by omega)]
      exact ⟨rfl, rfl⟩
  · rcases b with _ | _
    · by_cases hlen : (p.args.getD p.index []).length ≤ p.point + 1
      · rw [Parser.dispatch_flag_last p hc hlen]
        exact ⟨rfl, rfl⟩
      · rw [Parser.dispatch_flag_mid p hc (by omega)]
        exact ⟨rfl, rfl⟩
    · by_cases hlen : (p.args.getD p.index []).length ≤ p.point + 1
      · by_cases hidx : p.args.length ≤ p.index + 1
        · rw [Parser.dispatch_arg_missing p hc hlen hidx]
          exact ⟨rfl, rfl⟩
        · rw [Parser.dispatch_arg_next p hc hlen (by omega)]
          exact ⟨rfl, rfl⟩
      · rw [Parser.dispatch_arg_inline p hc (by omega)]
        exact ⟨rfl, rfl⟩

lemma Parser.dispatch_monotone (p : Parser) :
    p.index ≤ p.dispatch.2.index ∧
      (p.dispatch.2.index ≠ p.index → p.dispatch.2.point = 0) := by
  rcases hc : p.opts ((p.args.getD p.index []).getD p.point ' ') with _ | b
  · by_cases hlen : (p.args.getD p.index []).length ≤ p.point + 1
    · rw [Parser.dispatch_unknown_last p hc hlen]
      exact ⟨Nat.le_succ _, fun _ => rfl⟩
    · rw [Parser.dispatch_unknown_mid p hc (by omega)]
      exact ⟨le_refl _, fun hne => absurd rfl hne⟩
  · rcases b with _ | _
    · by_cases hlen : (p.args.getD p.index []).length ≤ p.point + 1
      · rw [Parser.dispatch_flag_last p hc hlen]
        exact ⟨Nat.le_succ _, fun _ => rfl⟩
      · rw [Parser.dispatch_flag_mid p hc (by omega)]
        exact ⟨le_refl _, fun hne => absurd rfl hne⟩
    · by_cases hlen : (p.args.getD p.index []).length ≤ p.point + 1
      · by_cases hidx : p.args.length ≤ p.index + 1
        · rw [Parser.dispatch_arg_missing p hc hlen hidx]
          exact ⟨Nat.le_succ _, fun _ => rfl⟩
        · rw [Parser.dispatch_arg_next p hc hlen (by omega)]
          exact ⟨Nat.le_add_right _ 2, fun _ => rfl⟩
      · rw [Parser.dispatch_arg_inline p hc (by omega)]
        exact ⟨Nat.le_succ _, fun _ => rfl⟩

lemma Parser.next_frame (p : Parser) :
    p.next.2.args = p.args ∧ p.next.2.opts = p.opts := by
  rcases hdp : p.dispatchPoint with _ | j
  · rcases p.dispatchPoint_none hdp with h2 | h2 <;> rw [h2] <;> exact ⟨rfl, rfl⟩
  · rw [p.next_eq_dispatch j hdp]
    exact Parser.dispatch_frame { p with point := j }

lemma Parser.next_missing_char (p : Parser) (d : Char)
    (h : p.next.1 = some (StepResult.err ⟨d, ErrorKind.MissingArgument⟩)) :
    ∃ j, p.dispatchPoint = some j ∧
      (p.args.getD p.index []).getD j ' ' = d ∧
      p.opts d = some true ∧
      (p.args.getD p.index []).length ≤ j + 1 ∧
      p.args.length ≤ p.index + 1 ∧
      p.next.2.index = p.index + 1 ∧ p.next.2.point = 0 := by
  rcases hdp : p.dispatchPoint with _ | j
  · rcases p.dispatchPoint_none hdp with h2 | h2 <;> rw [h2] at h <;> simp at h
  · rw [p.next_eq_dispatch j hdp] at h ⊢
    rcases hc : p.opts ((p.args.getD p.index []).getD j ' ') with _ | b
    · by_cases hlen : (p.args.getD p.index []).length ≤ j + 1
      · rw [Parser.dispatch_unknown_last { p with point := j } hc hlen] at h
        simp at h
      · rw [Parser.dispatch_unknown_mid { p with point := j } hc
          (show j + 1 < (p.args.getD p.index []).length by omega)] at h
        simp at h
    · rcases b with _ | _
      · by_cases hlen : (p.args.getD p.index []).length ≤ j + 1
        · rw [Parser.dispatch_flag_last { p with point := j } hc hlen] at h
          simp at h
        · rw [Parser.dispatch_flag_mid { p with point := j } hc
            (show j + 1 < (p.args.getD p.index []).length by omega)] at h
          simp at h
      · by_cases hlen : (p.args.getD p.index []).length ≤ j + 1
        · by_cases hidx : p.args.length ≤ p.index + 1
          · rw [Parser.dispatch_arg_missing { p with point := j } hc hlen hidx] at h ⊢
            simp only [Option.some.injEq, StepResult.err.injEq, Error.mk.injEq] at h
            obtain ⟨hd, -⟩ := h
            refine ⟨j, rfl, hd, ?_, hlen, hidx, rfl, rfl⟩
            rw [← hd]
            exact hc
          · rw [Parser.dispatch_arg_next { p with point := j } hc hlen
              (show p.index + 1 < p.args.length by omega)] at h
            simp at h
        · rw [Parser.dispatch_arg_inline { p with point := j } hc
            (show j + 1 < (p.args.getD p.index []).length by omega)] at h
          simp at h

lemma Parser.inv_dispatch (p : Parser) (hidx : p.index < p.args.length) :
    p.dispatch.2.Inv := by
  rcases hc : p.opts ((p.args.getD p.index []).getD p.point ' ') with _ | b
  · by_cases hlen : (p.args.getD p.index []).length ≤ p.point + 1
    · rw [Parser.dispatch_unknown_last p hc hlen]
      intro h0
      exact absurd rfl h0
    · rw [Parser.dispatch_unknown_mid p hc (by omega)]
      intro _
      refine ⟨hidx, ?_⟩
      show p.point + 1 < (p.args.getD p.index []).length
      omega
  · rcases b with _ | _
    · by_cases hlen : (p.args.getD p.index []).length ≤ p.point + 1
      · rw [Parser.dispatch_flag_last p hc hlen]
        intro h0
        exact absurd rfl h0
      · rw [Parser.dispatch_flag_mid p hc (by omega)]
        intro _
        refine ⟨hidx, ?_⟩
        show p.point + 1 < (p.args.getD p.index []).length
        omega
    · by_cases hlen : (p.args.getD p.index []).length ≤ p.point + 1
      · by_cases hidx2 : p.args.length ≤ p.index + 1
        · rw [Parser.dispatch_arg_missing p hc hlen hidx2]
          intro h0
          exact absurd rfl h0
        · rw [Parser.dispatch_arg_next p hc hlen (by omega)]
          intro h0
          exact absurd rfl h0
      · rw [Parser.dispatch_arg_inline p hc (by omega)]
        intro h0
        exact absurd rfl h0

lemma Parser.inv_next (p : Parser) (h : p.Inv) : p.next.2.Inv := by
  rcases hdp : p.dispatchPoint with _ | j
  · rcases p.dispatchPoint_none hdp with h2 | h2 <;> rw [h2]
    · exact h
    · intro h0
      exact absurd rfl h0
  · rw [p.next_eq_dispatch j hdp]
    rcases p.dispatchPoint_cases j hdp with ⟨h0, hj, hi, hl, -⟩ | ⟨hj, hne⟩
    · subst hj
      exact Parser.inv_dispatch { p with point := 1 } hi
    · subst hj
      obtain ⟨hi, -⟩ := h hne
      exact Parser.inv_dispatch { p with point := p.point } hi

lemma Parser.dispatch_ne_none (p : Parser) : p.dispatch.1 ≠ none := by
  rcases hc : p.opts ((p.args.getD p.index []).getD p.point ' ') with _ | b
  · by_cases hlen : (p.args.getD p.index []).length ≤ p.point + 1
    · rw [Parser.dispatch_unknown_last p hc hlen]
      simp
    · rw [Parser.dispatch_unknown_mid p hc (by omega)]
      simp
  · rcases b with _ | _
    · by_cases hlen : (p.args.getD p.index []).length ≤ p.point + 1
      · rw [Parser.dispatch_flag_last p hc hlen]
        simp
      · rw [Parser.dispatch_flag_mid p hc (by omega)]
        simp
    · by_cases hlen : (p.args.getD p.index []).length ≤ p.point + 1
      · by_cases hidx : p.args.length ≤ p.index + 1
        · rw [Parser.dispatch_arg_missing p hc hlen hidx]
          simp
        · rw [Parser.dispatch_arg_next p hc hlen (by omega)]
          simp
      · rw [Parser.dispatch_arg_inline p hc (by omega)]
        simp

lemma Parser.next_none_fixed (p : Parser) (h1 : p.next.1 = none)
    (h2 : p.next.2.index = p.index) : p.next = (none, p) := by
  rcases hdp : p.dispatchPoint with _ | j
  · rcases p.dispatchPoint_none hdp with h3 | h3
    · exact h3
    · rw [h3] at h2
      have : p.index + 1 = p.index := h2
      omega
  · rw [p.next_eq_dispatch j hdp] at h1
    exact absurd h1 (Parser.dispatch_ne_none { p with point := j })

lemma Parser.run_fixed (p : Parser) (h : p.next = (none, p)) (n : Nat) :
    p.run n = (List.replicate n none, p) := by
  induction n with
  | zero => rfl
  | succ n ih => simp [Parser.run, h, ih, List.replicate_succ]

/-- Modelled from the spec (claim C8's description of OptionSpec
construction): the left-to-right scan of the option-spec string, producing
the sequence of recorded `(character, expects_argument)` entries in order. -/
def specScanSpec : List Char → List (Char × Bool)
  | [] => []
  | [c] => [(c, false)]
  | c :: d :: rest =>
    if d = ':' then (c, true) :: specScanSpec rest
    else (c, false) :: specScanSpec (d :: rest)

/-- Modelled from the spec: lookup in an entry sequence where a later entry
overrides an earlier one ("last write wins"). -/
def lastWriteWins : List (Char × Bool) → Char → Option Bool
  | [], _ => none
  | (k, v) :: rest, c =>
    match lastWriteWins rest c with
    | some w => some w
    | none => if k = c then some v else none

lemma buildOpts_eq_lastWriteWins (s : List Char) (m : Char → Option Bool) (x : Char) :
    buildOpts s m x =
      match lastWriteWins (specScanSpec s) x with
      | some b => some b
      | none => m x := by
  induction s, m using buildOpts.induct with
  | case1 m => simp [buildOpts, specScanSpec, lastWriteWins]
  | case2 c m =>
    by_cases h : x = c
    · subst h
      simp [buildOpts, specScanSpec, lastWriteWins, specInsert]
    · simp [buildOpts, specScanSpec, lastWriteWins, specInsert, h, Ne.symm h]
  | case3 c rest m ih =>
    rw [show buildOpts (c :: ':' :: rest) m = buildOpts rest (specInsert m c true) from by
      simp [buildOpts]]
    rw [ih]
    simp only [specScanSpec, if_pos rfl]
    cases hL : lastWriteWins (specScanSpec rest) x with
    | none =>
      by_cases h : x = c
      · subst h
        simp [lastWriteWins, hL, specInsert]
      · simp [lastWriteWins, hL, specInsert, h, Ne.symm h]
    | some w => simp [lastWriteWins, hL]
  | case4 c d rest m hd ih =>
    rw [show buildOpts (c :: d :: rest) m = buildOpts (d :: rest) (specInsert m c false) from by
      simp [buildOpts, hd]]
    rw [ih]
    simp only [specScanSpec, if_neg hd]
    cases hL : lastWriteWins (specScanSpec (d :: rest)) x with
    | none =>
      by_cases h : x = c
      · subst h
        simp [lastWriteWins, hL, specInsert]
      · simp [lastWriteWins, hL, specInsert, h, Ne.symm h]
    | some w => simp [lastWriteWins, hL]

/-! Claim theorems. -/

/-- C1: for the argument vector ["prog","-abc","-d","foo","-e","bar"] and
option-spec string "ab:d:e", the step operation yields exactly
Opt('a', none), Opt('b', "c"), Opt('d', "foo"), Opt('e', none), then
end-of-options, with the final index 5 pointing at the token "bar": a
bundled token is decomposed option by option, and an argument-taking option
inside a bundle consumes the remainder of its own token as its value. -/
theorem claim_C1_bundling_scenario :
    ((Parser.new ["prog", "-abc", "-d", "foo", "-e", "bar"] "ab:d:e").run 5).1 =
      [some (StepResult.ok ⟨'a', none⟩),
       some (StepResult.ok ⟨'b', ['c']⟩),
       some (StepResult.ok ⟨'d', ['f', 'o', 'o']⟩),
       some (StepResult.ok ⟨'e', none⟩),
       none] ∧
    ((Parser.new ["prog", "-abc", "-d", "foo", "-e", "bar"] "ab:d:e").run 5).2.index = 5 ∧
    ["prog", "-abc", "-d", "foo", "-e", "bar"].getD 5 "" = "bar" := by
  refine ⟨?_, ?_, ?_⟩ <;> decide

/-- C3: with point 0, if the index is at or beyond the end of the argument
vector, or the token at the current index is empty, is exactly "-", or does
not start with the prefix character '-', the step operation returns
end-of-options and leaves the whole state (index and point included)
unchanged. -/
theorem claim_C3_boundary_stop (p : Parser) (h0 : p.point = 0)
    (h : p.index ≥ p.args.length ∨ p.args.getD p.index [] = [] ∨
         p.args.getD p.index [] = ['-'] ∨
         (p.args.getD p.index []).getD 0 ' ' ≠ '-') :
    p.next = (none, p) := by
  rcases h with h | h | h | h
  · exact p.next_of_stop h0 (Or.inl h)
  · exact p.next_of_stop h0 (Or.inr (Or.inl h))
  · refine p.next_of_stop h0 (Or.inr (Or.inr (Or.inr ?_)))
    rw [h]
    rfl
  · exact p.next_of_stop h0 (Or.inr (Or.inr (Or.inl h)))

/-- C3 witness: instantiated at the vector ["prog", "foo"], spec "a". -/
theorem claim_C3_witness :
    (Parser.new ["prog", "foo"] "a").next = (none, Parser.new ["prog", "foo"] "a") :=
  claim_C3_boundary_stop _ rfl (by decide)

/-- C4: with point 0, when the token at the current index is exactly the
two-character terminator "--", the step operation returns end-of-options
and advances the index by exactly one, resetting point to 0. -/
theorem claim_C4_terminator (p : Parser) (h0 : p.point = 0)
    (h : p.args.getD p.index [] = ['-', '-']) :
    p.next = (none, { p with index := p.index + 1, point := 0 }) := by
  have hlt : p.index < p.args.length := by
    by_contra hge
    rw [List.getD_eq_default _ _ (by omega)] at h
    exact absurd h (by simp)
  exact p.next_of_ddash h0 h hlt

/-- C4 witness: instantiated at the vector ["prog", "--", "-a"], spec "a". -/
theorem claim_C4_witness :
    (Parser.new ["prog", "--", "-a"] "a").next =
      (none, { Parser.new ["prog", "--", "-a"] "a" with index := 2, point := 0 }) :=
  claim_C4_terminator _ rfl (by decide)

/-- C9: over every parser state, one step operation never decreases the
index, and whenever the step changes the index it leaves point reset
to 0. -/
theorem claim_C9_monotone_index (p : Parser) :
    p.index ≤ p.next.2.index ∧ (p.next.2.index ≠ p.index → p.next.2.point = 0) := by
  rcases hdp : p.dispatchPoint with _ | j
  · rcases p.dispatchPoint_none hdp with h2 | h2 <;> rw [h2]
    · exact ⟨le_refl _, fun hne => absurd rfl hne⟩
    · exact ⟨Nat.le_succ _, fun _ => rfl⟩
  · rw [p.next_eq_dispatch j hdp]
    exact Parser.dispatch_monotone { p with point := j }

/-- C9 witness: instantiated at the vector ["p", "--"], where the step does
change the index (1 to 2) and leaves point 0. -/
theorem claim_C9_witness :
    (Parser.new ["p", "--"] "a").index ≤ (Parser.new ["p", "--"] "a").next.2.index ∧
    (Parser.new ["p", "--"] "a").next.2.point = 0 :=
  ⟨(claim_C9_monotone_index (Parser.new ["p", "--"] "a")).1,
   (claim_C9_monotone_index (Parser.new ["p", "--"] "a")).2 (by decide)⟩

/-- C2: when the dispatched option character is in the spec, marked
argument-taking, and is the last character of its token: with no further
token the step returns MissingArgument carrying that character and leaves
the index one past the exhausted vector with point 0; with a further token
the step returns the option with the entire next token as its value and
advances the index past that token. Conversely (over states satisfying the
parser's in-bounds invariant) MissingArgument is returned in exactly this
exhausted-vector case and no other. -/
theorem claim_C2_missing_argument :
    (∀ (p : Parser) (j : Nat) (c : Char),
      p.dispatchPoint = some j →
      (p.args.getD p.index []).getD j ' ' = c →
      p.opts c = some true →
      j + 1 = (p.args.getD p.index []).length →
      (p.args.length ≤ p.index + 1 →
        p.next.1 = some (StepResult.err ⟨c, ErrorKind.MissingArgument⟩) ∧
        p.next.2.index = p.index + 1 ∧ p.next.2.point = 0) ∧
      (p.index + 1 < p.args.length →
        p.next.1 = some (StepResult.ok ⟨c, some (p.args.getD (p.index + 1) [])⟩) ∧
        p.next.2.index = p.index + 2 ∧ p.next.2.point = 0)) ∧
    (∀ (q : Parser) (d : Char), q.Inv →
      q.next.1 = some (StepResult.err ⟨d, ErrorKind.MissingArgument⟩) →
      ∃ j, q.dispatchPoint = some j ∧
        (q.args.getD q.index []).getD j ' ' = d ∧
        q.opts d = some true ∧
        j + 1 = (q.args.getD q.index []).length ∧
        q.args.length ≤ q.index + 1) := by
  constructor
  · intro p j c hdp hc hopts hlast
    subst hc
    rw [p.next_eq_dispatch j hdp]
    constructor
    · intro hidx
      rw [Parser.dispatch_arg_missing { p with point := j } hopts
        (show (p.args.getD p.index []).length ≤ j + 1 by omega) hidx]
      exact ⟨rfl, rfl, rfl⟩
    · intro hidx
      rw [Parser.dispatch_arg_next { p with point := j } hopts
        (show (p.args.getD p.index []).length ≤ j + 1 by omega) hidx]
      exact ⟨rfl, rfl, rfl⟩
  · intro q d hInv h
    obtain ⟨j, hdp, hd, hopts, hlen, hidx, -, -⟩ := q.next_missing_char d h
    refine ⟨j, hdp, hd, hopts, ?_, hidx⟩
    have hj : j < (q.args.getD q.index []).length := by
      rcases q.dispatchPoint_cases j hdp with ⟨-, hj1, -, hl, -⟩ | ⟨hj2, hne⟩
      · omega
      · obtain ⟨-, hlt⟩ := hInv hne
        omega
    omega

/-- C2 witness: instantiated at the vector ["p", "-a"], spec "a:", where the
first step yields MissingArgument('a') with the index moved to 2. -/
theorem claim_C2_witness :
    (Parser.new ["p", "-a"] "a:").next.1 =
      some (StepResult.err ⟨'a', ErrorKind.MissingArgument⟩) ∧
    (Parser.new ["p", "-a"] "a:").next.2.index = 2 ∧
    (Parser.new ["p", "-a"] "a:").next.2.point = 0 :=
  ((claim_C2_missing_argument.1 (Parser.new ["p", "-a"] "a:") 1 'a'
    (by decide) (by decide) (by decide) (by decide)).1 (by decide))

/-- C10: when the dispatched option expects an argument, is the last
character of its token, and a next token exists, that next token is taken
verbatim and in full as the option's value — for every possible next token
`t`, including "", "-", "--", and tokens beginning with '-' — and the index
advances past it; the value is never re-interpreted. -/
theorem claim_C10_verbatim_value (p : Parser) (j : Nat) (c : Char) (t : List Char)
    (hdp : p.dispatchPoint = some j)
    (hc : (p.args.getD p.index []).getD j ' ' = c)
    (hopts : p.opts c = some true)
    (hlast : j + 1 = (p.args.getD p.index []).length)
    (hidx : p.index + 1 < p.args.length)
    (ht : p.args.getD (p.index + 1) [] = t) :
    p.next.1 = some (StepResult.ok ⟨c, some t⟩) ∧
    p.next.2.index = p.index + 2 ∧ p.next.2.point = 0 := by
  subst hc
  subst ht
  rw [p.next_eq_dispatch j hdp]
  rw [Parser.dispatch_arg_next { p with point := j } hopts
    (show (p.args.getD p.index []).length ≤ j + 1 by omega) hidx]
  exact ⟨rfl, rfl, rfl⟩

/-- C10 witness: instantiated with the next token "--", taken verbatim as
the value of '-d'. -/
theorem claim_C10_witness :
    (Parser.new ["p", "-d", "--", "x"] "d:").next.1 =
      some (StepResult.ok ⟨'d', some ['-', '-']⟩) ∧
    (Parser.new ["p", "-d", "--", "x"] "d:").next.2.index = 3 ∧
    (Parser.new ["p", "-d", "--", "x"] "d:").next.2.point = 0 :=
  claim_C10_verbatim_value (Parser.new ["p", "-d", "--", "x"] "d:") 1 'd' ['-', '-']
    (by decide) (by decide) (by decide) (by decide) (by decide) (by decide)

/-- C5 (amended): when the step operation has returned end-of-options
WITHOUT moving the index (the token-boundary case: exhausted vector, empty
token, bare "-", or non-option token), every subsequent invocation also
returns end-of-options and performs no mutation at all. (After the "--"
terminator, by contrast, the index has advanced and a later invocation
rescans from the following token — see the counterexample.) -/
theorem claim_C5_idempotent_stop (p : Parser) (h1 : p.next.1 = none)
    (h2 : p.next.2.index = p.index) :
    ∀ n, (p.run n).1 = List.replicate n none ∧ (p.run n).2 = p := by
  have h := p.next_none_fixed h1 h2
  intro n
  rw [p.run_fixed h n]
  exact ⟨rfl, rfl⟩

/-- C5 witness: instantiated at the vector ["p", "x"], three further steps. -/
theorem claim_C5_witness :
    ((Parser.new ["p", "x"] "a").run 3).1 = List.replicate 3 none ∧
    ((Parser.new ["p", "x"] "a").run 3).2 = Parser.new ["p", "x"] "a" :=
  claim_C5_idempotent_stop (Parser.new ["p", "x"] "a") (by decide) (by decide) 3

/-- C5 counterexample: with vector ["p", "--", "-a"] and spec "a", the first
step returns end-of-options (via the "--" terminator, advancing the index),
but the next invocation does NOT return end-of-options: it yields
Opt('a', none) and mutates the cursor further, refuting the claim that
every invocation after end-of-options returns end-of-options. -/
theorem claim_C5_counterexample :
    (Parser.new ["p", "--", "-a"] "a").next.1 = none ∧
    (Parser.new ["p", "--", "-a"] "a").next.2.next.1 =
      some (StepResult.ok ⟨'a', none⟩) := by
  refine ⟨?_, ?_⟩ <;> decide

/-- C6 (amended): a dispatched character absent from the spec yields
UnknownOption carrying that character, and the cursor has already been
advanced past the offending character: to the next token (point 0) when it
ended its token, otherwise to the next character of the same token — the
next invocation resumes scanning from that position, not necessarily from
the next token. After MissingArgument the index is one past the exhausted
vector and the subsequent invocation returns end-of-options. -/
theorem claim_C6_unknown_option :
    (∀ (p : Parser) (j : Nat) (c : Char),
      p.dispatchPoint = some j →
      (p.args.getD p.index []).getD j ' ' = c →
      p.opts c = none →
      p.next.1 = some (StepResult.err ⟨c, ErrorKind.UnknownOption⟩) ∧
      ((p.args.getD p.index []).length ≤ j + 1 →
        p.next.2.index = p.index + 1 ∧ p.next.2.point = 0) ∧
      (j + 1 < (p.args.getD p.index []).length →
        p.next.2.index = p.index ∧ p.next.2.point = j + 1)) ∧
    (∀ (q : Parser) (d : Char),
      q.next.1 = some (StepResult.err ⟨d, ErrorKind.MissingArgument⟩) →
      q.next.2.index = q.index + 1 ∧ q.next.2.point = 0 ∧
      q.next.2.next.1 = none) := by
  constructor
  · intro p j c hdp hc hopts
    subst hc
    rw [p.next_eq_dispatch j hdp]
    by_cases hlen : (p.args.getD p.index []).length ≤ j + 1
    · rw [Parser.dispatch_unknown_last { p with point := j } hopts hlen]
      exact ⟨rfl, fun _ => ⟨rfl, rfl⟩, fun hlt => absurd hlt (by omega)⟩
    · rw [Parser.dispatch_unknown_mid { p with point := j } hopts
        (show j + 1 < (p.args.getD p.index []).length by omega)]
      exact ⟨rfl, fun hge => absurd hge hlen, fun _ => ⟨rfl, rfl⟩⟩
  · intro q d h
    obtain ⟨j, hdp, hd, hopts, hlen, hidx, hi, hp⟩ := q.next_missing_char d h
    refine ⟨hi, hp, ?_⟩
    have hargs : q.next.2.args = q.args := q.next_frame.1
    rw [Parser.next_of_stop q.next.2 hp (Or.inl (by rw [hargs, hi]; omega))]

/-- C6 witness: instantiated at ["p", "-xa"], spec "a": UnknownOption('x')
with the cursor left inside the same token (index 1, point 2). -/
theorem claim_C6_witness :
    (Parser.new ["p", "-xa"] "a").next.1 =
      some (StepResult.err ⟨'x', ErrorKind.UnknownOption⟩) ∧
    (Parser.new ["p", "-xa"] "a").next.2.index = 1 ∧
    (Parser.new ["p", "-xa"] "a").next.2.point = 2 := by
  have h := claim_C6_unknown_option.1 (Parser.new ["p", "-xa"] "a") 1 'x'
    (by decide) (by decide) (by decide)
  have h3 := h.2.2 (by decide)
  exact ⟨h.1, h3.1, h3.2⟩

/-- C6 counterexample: with vector ["p", "-xa"] and spec "a", the step after
the UnknownOption('x') error does not resume scanning from the next token:
the index is still 1 and the following invocation yields Opt('a', none)
read from the same token (had scanning resumed from token 2, which does not
exist, it would have returned end-of-options). -/
theorem claim_C6_counterexample :
    (Parser.new ["p", "-xa"] "a").next.1 =
      some (StepResult.err ⟨'x', ErrorKind.UnknownOption⟩) ∧
    (Parser.new ["p", "-xa"] "a").next.2.index = 1 ∧
    (Parser.new ["p", "-xa"] "a").next.2.next.1 =
      some (StepResult.ok ⟨'a', none⟩) := by
  refine ⟨?_, ?_, ?_⟩ <;> decide

/-- C7: every state reachable by construction, set_index, incr_index and
step operations satisfies the in-bounds invariant: whenever point is
nonzero, the index is within the argument vector and point is within the
current token's character count — the unguarded indexings performed by the
Rust `next` are therefore in bounds and the step operation never panics. -/
theorem claim_C7_reachable_inv (p : Parser) (h : p.Reachable) : p.Inv := by
  induction h with
  | new args optstring =>
    intro h0
    exact absurd rfl h0
  | set_index q v hq ih =>
    intro h0
    exact absurd rfl h0
  | incr_index q hq ih =>
    intro h0
    exact absurd rfl h0
  | step q hq ih => exact q.inv_next ih

/-- C7 witness: the invariant holds one step into scanning ["p", "-xa"]
(a state with nonzero point). -/
theorem claim_C7_witness : (Parser.new ["p", "-xa"] "a").next.2.Inv :=
  claim_C7_reachable_inv _
    (Parser.Reachable.step _ (Parser.Reachable.new ["p", "-xa"] "a"))

/-- C8 (amended): OptionSpec construction succeeds for every option-spec
string; the resulting mapping equals the last-write-wins reading of the
left-to-right scan in which a character followed by ':' is recorded as
expects_argument = true and any other character as false — in particular a
trailing delimiter with no preceding option character is NOT dropped but
recorded as an ordinary entry for the character ':' itself with
expects_argument = false. -/
theorem claim_C8_optstring_scan :
    (∀ (s : List Char) (x : Char),
      buildOpts s (fun _ => none) x = lastWriteWins (specScanSpec s) x) ∧
    (Parser.new [] ":").opts ':' = some false := by
  constructor
  · intro s x
    rw [buildOpts_eq_lastWriteWins]
    cases lastWriteWins (specScanSpec s) x <;> rfl
  · decide

/-- C8 counterexample: for the option-spec string ":" (a trailing delimiter
with no preceding option character) the mapping is not empty: it contains
an entry for ':', refuting "silently ignored, producing no entry". -/
theorem claim_C8_counterexample : (Parser.new [] ":").opts ':' ≠ none := by
  decide

end Getopt
